import Mathlib

/-!
Shallow embedding of the dual-copy, epoch-batched software transactional
memory (final variant of `tm.cpp`, together with `Batcher::enter`,
`Batcher::leave` and `Region::end_epoch`).

Modelling conventions:
* one aligned word's payload (align bytes, moved by a single `memcpy`)
  is modelled as one `Nat`;
* the per-slot layout `[copy at offset 0 | copy at offset align | atomic_uint
  access | control bytes]` is a `Word` record; the code addresses TWO distinct
  control bytes as "read version": `tm_read`/`tm_write` consult the byte at
  offset `2*align + sizeof(atomic_uint) + 1` (field `readVer1`) while
  `Region::end_epoch` flips the byte at `2*align + sizeof(atomic_uint) + 3`
  (field `readVer3`); being distinct bytes of a zero-initialised (`mmap`
  `MAP_ANONYMOUS`) slot they are modelled as two independent booleans;
* word slots are addressed by index; `List.getD` with default `Word.init`
  models the pre-mapped, zero-filled arena (any slot not explicitly stored
  reads as a fresh zero slot);
* the lock-free `written` list and the `writes` vector hold word indices;
* atomics are modelled by interleaving whole atomic operations: every
  per-word step of the source loops is one transition of the model.
-/

namespace STM

/-- One word slot: two payload copies, the atomic access token (0 = no
owner), and the two distinct control bytes that the source addresses as the
read-version bit (offset +1 byte consulted by reads/writes, offset +3 byte
flipped by the epoch commit). -/
structure Word where
  copyA : Nat
  copyB : Nat
  access : Nat
  readVer1 : Bool
  readVer3 : Bool
deriving Repr, DecidableEq

/-- A fresh slot of the `mmap`-ed zero-filled arena. -/
def Word.init : Word :=
  { copyA := 0, copyB := 0, access := 0, readVer1 := false, readVer3 := false }

/-- The read copy: `word + (*read_version ? align : 0)`, i.e. the copy at
offset `align` (copy B) when the consulted byte is set, else the copy at
offset 0 (copy A). -/
def readCopy (w : Word) : Nat :=
  if w.readVer1 then w.copyB else w.copyA

/-- The write copy: `word + (*read_version ? 0 : align)`, the other copy. -/
def writeCopy (w : Word) : Nat :=
  if w.readVer1 then w.copyA else w.copyB

/-- Store a value into the write copy of a slot (the `memcpy` of
`tm_write`). -/
def setWriteCopy (w : Word) (v : Nat) : Word :=
  if w.readVer1 then { w with copyA := v } else { w with copyB := v }

/-- Release a slot's access token (`access->store(0)` in `clear_writes`). -/
def zeroAccess (w : Word) : Word :=
  { w with access := 0 }

/-- Epoch-commit action on one written slot: flip the control byte at offset
`2*align + sizeof(atomic_uint) + 3`, then store 0 into the access token. -/
def epochFlip (w : Word) : Word :=
  { w with readVer3 := !w.readVer3, access := 0 }

/-- Per-transaction state: the minted id, the read-only flag, and the
`writes` vector of word slots this transaction owns. -/
structure Transaction where
  t_id : Nat
  is_ro : Bool
  writes : List Nat
deriving Repr, DecidableEq

/-- Batcher state: the `remaining` participant counter (an `atomic_int` in
the source, hence `Int`) and the `wait` flag. -/
structure Batcher where
  remaining : Int
  wait : Bool
deriving Repr, DecidableEq

/-- Region state of the final variant: construction parameters, the word
slots of the arena, the lock-free list of written slots, the transaction-id
counter, and the bump-allocator bookkeeping (`tot_size`, `next_segment`,
byte offsets from `start`). -/
structure Region where
  size : Nat
  align : Nat
  words : List Word
  written : List Nat
  tran_counter : Nat
  tot_size : Nat
  next_segment : Nat
  batcher : Batcher
deriving Repr, DecidableEq

/-- Result kinds of `tm_alloc`, from the course interface. -/
inductive Alloc where
  | success
  | nomem
  | abort
deriving Repr, DecidableEq

/-- The `clear_writes` helper: store 0 into the access token of every slot
recorded in the transaction's `writes` vector (the vector itself is cleared
by the caller dropping the transaction). -/
def clear_writes (ws : List Word) (writes : List Nat) : List Word :=
  writes.foldl (fun acc i => acc.set i (zeroAccess (acc.getD i Word.init))) ws

/-- The `Region::end_epoch` of the final variant: for every slot in the
`written` list, flip the control byte at offset `+3` and release the access
token; then destroy the list. -/
def end_epoch (reg : Region) : Region :=
  { reg with
    words := reg.written.foldl
      (fun acc i => acc.set i (epochFlip (acc.getD i Word.init))) reg.words,
    written := [] }

/-- The `Batcher::leave(failed)` of the final variant: when `failed`, raise
the `wait` flag; then compare-and-swap `remaining` from 1 to 0 — on success
run the epoch commit and clear `wait` (then `notify_all`), otherwise just
decrement `remaining`. -/
def Batcher.leave (failed : Bool) (reg : Region) : Region :=
  let b1 := if failed then { reg.batcher with wait := true } else reg.batcher
  if b1.remaining = 1 then
    let reg2 := end_epoch { reg with batcher := { b1 with remaining := 0 } }
    { reg2 with batcher := { reg2.batcher with wait := false } }
  else
    { reg with batcher := { b1 with remaining := b1.remaining - 1 } }

/-- The `Batcher::enter(is_ro)` of the final variant: a read-write entrant
finding `wait` raised blocks on the condition variable (modelled as `none`);
otherwise the entrant increments `remaining` and proceeds. -/
def Batcher.enter (is_ro : Bool) (b : Batcher) : Option Batcher :=
  if b.wait && !is_ro then none
  else some { b with remaining := b.remaining + 1 }

/-- The `tm_create` of the final variant: `mmap` a zero-filled arena of
`MAX_SIZE` bytes, hand the first `size` bytes to the initial segment, and
set `next_segment` past it (`start + size*sizeof(Word)`).  `sow` stands for
`sizeof(Word)`, a layout constant not fixed by the sources. -/
def tm_create (sow size align : Nat) : Region :=
  { size := size
    align := align
    words := List.replicate (size / align) Word.init
    written := []
    tran_counter := 0
    tot_size := size
    next_segment := size * sow
    batcher := { remaining := 0, wait := false } }

/-- The `tm_begin` of the final variant: mint `++tran_counter` as the id,
build the transaction, and enter the batcher (blocking, i.e. `none`, when a
read-write entrant finds the batch draining). -/
def tm_begin (is_ro : Bool) (reg : Region) : Option (Transaction × Region) :=
  let t_id := reg.tran_counter + 1
  match Batcher.enter is_ro reg.batcher with
  | none => none
  | some b =>
    some ({ t_id := t_id, is_ro := is_ro, writes := [] },
          { reg with tran_counter := t_id, batcher := b })

/-- Outcome of one aligned-word step of `tm_write`. -/
inductive WriteRes where
  | ok (reg : Region) (tran : Transaction)
  | abort (reg : Region)
deriving Repr, DecidableEq

/-- One aligned-word iteration of `tm_write`: CAS the access token from 0 to
the transaction id; on success copy the source into the write copy and
record the slot; on failure with the observed token equal to the caller's id
copy only; otherwise clear the owned slots, drop the transaction and leave
the batch with `failed = true`. -/
def tm_write_word (reg : Region) (tran : Transaction) (i : Nat) (v : Nat) :
    WriteRes :=
  let w := reg.words.getD i Word.init
  if w.access = 0 then
    WriteRes.ok
      { reg with
        words := reg.words.set i (setWriteCopy { w with access := tran.t_id } v) }
      { tran with writes := tran.writes ++ [i] }
  else if w.access = tran.t_id then
    WriteRes.ok
      { reg with words := reg.words.set i (setWriteCopy w v) } tran
  else
    WriteRes.abort
      (Batcher.leave true { reg with words := clear_writes reg.words tran.writes })

/-- Outcome of one aligned-word step of `tm_read`. -/
inductive ReadRes where
  | ok (val : Nat)
  | abort (reg : Region)
deriving Repr, DecidableEq

/-- One aligned-word iteration of `tm_read`: a read-only transaction copies
the read copy; a read-write transaction reads its own write copy when it
owns the slot, the read copy when the token is 0, and otherwise aborts
(clearing its owned slots and leaving with `failed = true`). -/
def tm_read_word (reg : Region) (tran : Transaction) (i : Nat) : ReadRes :=
  let w := reg.words.getD i Word.init
  if tran.is_ro then ReadRes.ok (readCopy w)
  else if w.access = tran.t_id then ReadRes.ok (writeCopy w)
  else if w.access = 0 then ReadRes.ok (readCopy w)
  else
    ReadRes.abort
      (Batcher.leave true { reg with words := clear_writes reg.words tran.writes })

/-- The `tm_read` loop over the aligned words of the requested range,
returning the copied values on success, or `none` together with the
post-abort region (the transaction object is deleted on abort). -/
def tm_read (reg : Region) (tran : Transaction) :
    List Nat → Option (List Nat) × Region × Option Transaction
  | [] => (some [], reg, some tran)
  | i :: rest =>
    match tm_read_word reg tran i with
    | ReadRes.ok v =>
      match tm_read reg tran rest with
      | (some vs, reg2, t2) => (some (v :: vs), reg2, t2)
      | (none, reg2, t2) => (none, reg2, t2)
    | ReadRes.abort reg2 => (none, reg2, none)

/-- The `tm_write` loop over the aligned words of the requested range: the
boolean result of the entry point, the post-state, and the surviving
transaction (deleted on abort). -/
def tm_write (reg : Region) (tran : Transaction) :
    List (Nat × Nat) → Bool × Region × Option Transaction
  | [] => (true, reg, some tran)
  | (i, v) :: rest =>
    match tm_write_word reg tran i v with
    | WriteRes.ok reg2 tran2 => tm_write reg2 tran2 rest
    | WriteRes.abort reg2 => (false, reg2, none)

/-- The `tm_end` of the final variant: a read-write transaction pushes every
slot of its `writes` vector onto the region's lock-free `written` list
(newest at the tail), then the caller leaves the batch with
`failed = false` and the transaction is deleted; the return value is
unconditionally `true`. -/
def tm_end (reg : Region) (tran : Transaction) : Bool × Region :=
  let reg1 :=
    if !tran.is_ro && !tran.writes.isEmpty then
      { reg with written := tran.writes.foldl (fun acc i => i :: acc) reg.written }
    else reg
  (true, Batcher.leave false reg1)

/-- The `tm_alloc` of the final variant: under the allocation mutex, return
`nomem` when the accumulated size plus the request would exceed the arena
capacity `MAX_SIZE` (leaving everything unchanged); otherwise hand out
`next_segment`, advance it by `size*sizeof(Word)` and add to `tot_size`.
`maxSize` stands for the `MAX_SIZE` macro and `sow` for `sizeof(Word)`,
constants not fixed by the sources. -/
def tm_alloc (maxSize sow : Nat) (reg : Region) (tran : Transaction)
    (size : Nat) : Alloc × Region × Transaction × Option Nat :=
  if maxSize < reg.tot_size + size then
    (Alloc.nomem, reg, tran, none)
  else
    (Alloc.success,
     { reg with
       next_segment := reg.next_segment + size * sow
       tot_size := reg.tot_size + size },
     tran,
     some reg.next_segment)

/-- The `tm_free` of the final variant: all parameters are marked unused and
the function just returns `true`. -/
def tm_free (reg : Region) (tran : Transaction) (target : Nat) :
    Bool × Region × Transaction :=
  (true, reg, tran)

/-- The `get_word` address arithmetic: the slot index of a user address is
`(addr - start)/align` (with `start` taken as offset 0). -/
def get_word_index (align addr : Nat) : Nat :=
  addr / align

/-! Helper lemmas about slot lists. -/

theorem getD_set_self (ws : List Word) (j : Nat) (w d : Word)
    (h : j < ws.length) : (ws.set j w).getD j d = w := by
  rw [List.getD_eq_getElem?_getD, List.getElem?_set_eq_of_lt w h]
  rfl

theorem getD_set_ne (ws : List Word) (i j : Nat) (w d : Word)
    (h : j ≠ i) : (ws.set j w).getD i d = ws.getD i d := by
  rw [List.getD_eq_getElem?_getD, List.getElem?_set_ne h,
    ← List.getD_eq_getElem?_getD]

/-- Generic fact about the update folds of `clear_writes` and `end_epoch`:
indices outside the processed list keep their slot. -/
theorem fold_update_not_mem (f : Word → Word) (l : List Nat) (ws : List Word)
    (i : Nat) (h : i ∉ l) :
    ((l.foldl (fun acc j => acc.set j (f (acc.getD j Word.init))) ws).getD i
      Word.init) = ws.getD i Word.init := by
  induction l generalizing ws with
  | nil => rfl
  | cons j rest ih =>
    have hji : j ≠ i := fun hj => h (hj ▸ List.mem_cons_self j rest)
    have hir : i ∉ rest := fun hr => h (List.mem_cons_of_mem j hr)
    rw [List.foldl_cons, ih _ hir, getD_set_ne _ _ _ _ _ hji]

/-- Generic fact about the update folds of `clear_writes` and `end_epoch`:
when the per-slot action releases the access token, every index of the
processed list — and every index whose token was already released — ends
with a released token. -/
theorem fold_update_access_zero (f : Word → Word)
    (hf : ∀ w, (f w).access = 0) (l : List Nat) (ws : List Word) (i : Nat)
    (h : i ∈ l ∨ (ws.getD i Word.init).access = 0) :
    ((l.foldl (fun acc j => acc.set j (f (acc.getD j Word.init))) ws).getD i
      Word.init).access = 0 := by
  induction l generalizing ws with
  | nil =>
    rcases h with h | h
    · exact absurd h (List.not_mem_nil i)
    · exact h
  | cons j rest ih =>
    rw [List.foldl_cons]
    rcases Decidable.em (i ∈ rest) with hir | hir
    · exact ih _ (Or.inl hir)
    · refine ih _ (Or.inr ?_)
      rcases Decidable.em (j = i) with hji | hji
      · subst hji
        rcases Decidable.em (j < ws.length) with hlt | hlt
        · rw [getD_set_self _ _ _ _ hlt]
          exact hf _
        · rw [List.getD_eq_getElem?_getD, List.getElem?_eq_none
            (by simpa using Nat.le_of_not_lt hlt)]
          rfl
      · rw [getD_set_ne _ _ _ _ _ hji]
        rcases h with h | h
        · rcases List.mem_cons.mp h with h | h
          · exact absurd h.symm hji
          · exact absurd h hir
        · exact h

theorem clear_writes_access_zero (ws : List Word) (writes : List Nat)
    (i : Nat) (h : i ∈ writes ∨ (ws.getD i Word.init).access = 0) :
    ((clear_writes ws writes).getD i Word.init).access = 0 :=
  fold_update_access_zero zeroAccess (fun _ => rfl) writes ws i h

theorem clear_writes_not_mem (ws : List Word) (writes : List Nat) (i : Nat)
    (h : i ∉ writes) :
    (clear_writes ws writes).getD i Word.init = ws.getD i Word.init :=
  fold_update_not_mem zeroAccess writes ws i h

theorem end_epoch_access_zero (reg : Region) (i : Nat)
    (h : i ∈ reg.written ∨ (reg.words.getD i Word.init).access = 0) :
    (((end_epoch reg).words.getD i Word.init)).access = 0 :=
  fold_update_access_zero epochFlip (fun _ => rfl) reg.written reg.words i h

theorem end_epoch_not_mem (reg : Region) (i : Nat) (h : i ∉ reg.written) :
    (end_epoch reg).words.getD i Word.init = reg.words.getD i Word.init :=
  fold_update_not_mem epochFlip reg.written reg.words i h

theorem end_epoch_written (reg : Region) : (end_epoch reg).written = [] := rfl

/-- Leaving the batch either keeps the slot list or applies the epoch
commit to it: a released access token stays released. -/
theorem leave_access_zero (failed : Bool) (reg : Region) (i : Nat)
    (h : (reg.words.getD i Word.init).access = 0) :
    (((Batcher.leave failed reg).words.getD i Word.init)).access = 0 := by
  unfold Batcher.leave
  rcases Decidable.em
    ((if failed then { reg.batcher with wait := true } else reg.batcher).remaining
      = 1) with hc | hc
  · simp only [hc, if_pos]
    exact end_epoch_access_zero _ i (Or.inr h)
  · simp only [hc, if_neg, if_false]
    exact h

theorem access_setWriteCopy (w : Word) (v : Nat) :
    (setWriteCopy w v).access = w.access := by
  unfold setWriteCopy
  cases w.readVer1 <;> simp

theorem writeCopy_setWriteCopy (w : Word) (v : Nat) :
    writeCopy (setWriteCopy w v) = v := by
  unfold writeCopy setWriteCopy
  cases h : w.readVer1 <;> simp [h]

theorem readCopy_setWriteCopy (w : Word) (v : Nat) :
    readCopy (setWriteCopy w v) = readCopy w := by
  unfold readCopy setWriteCopy
  cases h : w.readVer1 <;> simp [h]

/-- C2 — `tm_write` word protocol: for every aligned word targeted by
`tm_write`, the operation CASes the access token from 0 to the caller's id;
on success it stores the source into the write copy and records the word in
the transaction's write set; on failure with the observed token equal to the
caller's id it stores into the write copy without recording the word again;
in every other case it aborts the transaction (which releases every owned
word) and the surrounding `tm_write` call returns false with the transaction
torn down. -/
theorem tm_write_word_protocol (reg : Region) (tran : Transaction)
    (i v : Nat) (hi : i < reg.words.length) :
    ((reg.words.getD i Word.init).access = 0 →
      ∃ reg2 tran2, tm_write_word reg tran i v = WriteRes.ok reg2 tran2 ∧
        tran2.t_id = tran.t_id ∧ tran2.is_ro = tran.is_ro ∧
        tran2.writes = tran.writes ++ [i] ∧
        (reg2.words.getD i Word.init).access = tran.t_id ∧
        writeCopy (reg2.words.getD i Word.init) = v ∧
        readCopy (reg2.words.getD i Word.init) =
          readCopy (reg.words.getD i Word.init) ∧
        (∀ j, j ≠ i → reg2.words.getD j Word.init = reg.words.getD j Word.init) ∧
        reg2.batcher = reg.batcher ∧ reg2.written = reg.written) ∧
    ((reg.words.getD i Word.init).access ≠ 0 →
      (reg.words.getD i Word.init).access = tran.t_id →
      ∃ reg2, tm_write_word reg tran i v = WriteRes.ok reg2 tran ∧
        (reg2.words.getD i Word.init).access = tran.t_id ∧
        writeCopy (reg2.words.getD i Word.init) = v ∧
        readCopy (reg2.words.getD i Word.init) =
          readCopy (reg.words.getD i Word.init) ∧
        (∀ j, j ≠ i → reg2.words.getD j Word.init = reg.words.getD j Word.init) ∧
        reg2.batcher = reg.batcher ∧ reg2.written = reg.written) ∧
    ((reg.words.getD i Word.init).access ≠ 0 →
      (reg.words.getD i Word.init).access ≠ tran.t_id →
      ∃ reg2, tm_write_word reg tran i v = WriteRes.abort reg2 ∧
        (∀ j, j ∈ tran.writes → (reg2.words.getD j Word.init).access = 0) ∧
        (∀ rest, tm_write reg tran ((i, v) :: rest) = (false, reg2, none))) := by
  refine ⟨fun h0 => ?_, fun hne hown => ?_, fun hne hfor => ?_⟩
  · refine
      ⟨{ reg with
          words := reg.words.set i
            (setWriteCopy { reg.words.getD i Word.init with access := tran.t_id } v) },
        { tran with writes := tran.writes ++ [i] }, ?_, rfl, rfl, rfl, ?_, ?_, ?_,
        ?_, rfl, rfl⟩
    · simp only [tm_write_word]
      rw [if_pos h0]
    · rw [getD_set_self _ _ _ _ hi, access_setWriteCopy]
    · rw [getD_set_self _ _ _ _ hi, writeCopy_setWriteCopy]
    · rw [getD_set_self _ _ _ _ hi, readCopy_setWriteCopy]
      simp [readCopy]
    · intro j hj
      exact getD_set_ne _ _ _ _ _ (fun hij => hj hij.symm)
  · refine
      ⟨{ reg with
          words := reg.words.set i (setWriteCopy (reg.words.getD i Word.init) v) },
        ?_, ?_, ?_, ?_, ?_, rfl, rfl⟩
    · simp only [tm_write_word]
      rw [if_neg hne, if_pos hown]
    · rw [getD_set_self _ _ _ _ hi, access_setWriteCopy, hown]
    · rw [getD_set_self _ _ _ _ hi, writeCopy_setWriteCopy]
    · rw [getD_set_self _ _ _ _ hi, readCopy_setWriteCopy]
    · intro j hj
      exact getD_set_ne _ _ _ _ _ (fun hij => hj hij.symm)
  · refine
      ⟨Batcher.leave true { reg with words := clear_writes reg.words tran.writes },
        ?_, ?_, ?_⟩
    · simp only [tm_write_word]
      rw [if_neg hne, if_neg hfor]
    · intro j hj
      exact leave_access_zero true _ j (clear_writes_access_zero _ _ j (Or.inl hj))
    · intro rest
      simp only [tm_write, tm_write_word]
      rw [if_neg hne, if_neg hfor]

/-- Witness for C2 at a concrete input: a two-word region, a fresh word, a
write of 7 by transaction 1 succeeds recording the word; a foreign owner
aborts transaction 2. -/
theorem tm_write_word_protocol_witness :
    (0 : Nat) < (tm_create 24 16 8).words.length ∧
    ∃ reg2 tran2,
      tm_write_word (tm_create 24 16 8) { t_id := 1, is_ro := false, writes := [] }
        0 7 = WriteRes.ok reg2 tran2 ∧
      tran2.t_id = 1 ∧ tran2.is_ro = false ∧ tran2.writes = [] ++ [0] ∧
      (reg2.words.getD 0 Word.init).access = 1 ∧
      writeCopy (reg2.words.getD 0 Word.init) = 7 ∧
      readCopy (reg2.words.getD 0 Word.init) =
        readCopy ((tm_create 24 16 8).words.getD 0 Word.init) ∧
      (∀ j, j ≠ 0 →
        reg2.words.getD j Word.init = (tm_create 24 16 8).words.getD j Word.init) ∧
      reg2.batcher = (tm_create 24 16 8).batcher ∧
      reg2.written = (tm_create 24 16 8).written := by
  refine ⟨by decide, ?_⟩
  exact (tm_write_word_protocol (tm_create 24 16 8)
    { t_id := 1, is_ro := false, writes := [] } 0 7 (by decide)).1 (by decide)

/-- C3 — `tm_read` word protocol: for every aligned word targeted by
`tm_read`, a read-only transaction copies the read copy and succeeds; a
read-write transaction copies its own write copy when the access token
equals its id, copies the read copy when the token is 0, and otherwise
aborts (releasing every owned word, and the surrounding `tm_read` returns
false with the transaction torn down). -/
theorem tm_read_word_protocol (reg : Region) (tran : Transaction) (i : Nat) :
    (tran.is_ro = true →
      tm_read_word reg tran i = ReadRes.ok (readCopy (reg.words.getD i Word.init))) ∧
    (tran.is_ro = false →
      (reg.words.getD i Word.init).access = tran.t_id →
      tm_read_word reg tran i = ReadRes.ok (writeCopy (reg.words.getD i Word.init))) ∧
    (tran.is_ro = false →
      (reg.words.getD i Word.init).access ≠ tran.t_id →
      (reg.words.getD i Word.init).access = 0 →
      tm_read_word reg tran i = ReadRes.ok (readCopy (reg.words.getD i Word.init))) ∧
    (tran.is_ro = false →
      (reg.words.getD i Word.init).access ≠ tran.t_id →
      (reg.words.getD i Word.init).access ≠ 0 →
      ∃ reg2, tm_read_word reg tran i = ReadRes.abort reg2 ∧
        (∀ j, j ∈ tran.writes → (reg2.words.getD j Word.init).access = 0) ∧
        (∀ rest, tm_read reg tran (i :: rest) = (none, reg2, none))) := by
  refine ⟨fun hro => ?_, fun hro hown => ?_, fun hro hnown h0 => ?_,
    fun hro hnown hn0 => ?_⟩
  · simp only [tm_read_word]
    rw [if_pos hro]
  · simp only [tm_read_word]
    rw [if_neg (by simp [hro]), if_pos hown]
  · simp only [tm_read_word]
    rw [if_neg (by simp [hro]), if_neg hnown, if_pos h0]
  · refine
      ⟨Batcher.leave true { reg with words := clear_writes reg.words tran.writes },
        ?_, ?_, ?_⟩
    · simp only [tm_read_word]
      rw [if_neg (by simp [hro]), if_neg hnown, if_neg hn0]
    · intro j hj
      exact leave_access_zero true _ j (clear_writes_access_zero _ _ j (Or.inl hj))
    · intro rest
      simp only [tm_read, tm_read_word]
      rw [if_neg (by simp [hro]), if_neg hnown, if_neg hn0]

/-- Witness for C3 at a concrete input: a read-only transaction reads the
read copy of a fresh word of a two-word region. -/
theorem tm_read_word_protocol_witness :
    tm_read_word (tm_create 24 16 8) { t_id := 2, is_ro := true, writes := [] } 0 =
      ReadRes.ok (readCopy ((tm_create 24 16 8).words.getD 0 Word.init)) :=
  (tm_read_word_protocol (tm_create 24 16 8)
    { t_id := 2, is_ro := true, writes := [] } 0).1 rfl

theorem tm_write_word_ok_shape (reg : Region) (t : Transaction) (i v : Nat)
    (reg2 : Region) (t2 : Transaction)
    (h : tm_write_word reg t i v = WriteRes.ok reg2 t2) :
    ((reg.words.getD i Word.init).access = 0 ∧
      reg2 = { reg with
        words := reg.words.set i
          (setWriteCopy { reg.words.getD i Word.init with access := t.t_id } v) } ∧
      t2 = { t with writes := t.writes ++ [i] }) ∨
    ((reg.words.getD i Word.init).access ≠ 0 ∧
      (reg.words.getD i Word.init).access = t.t_id ∧
      reg2 = { reg with
        words := reg.words.set i (setWriteCopy (reg.words.getD i Word.init) v) } ∧
      t2 = t) := by
  simp only [tm_write_word] at h
  by_cases h0 : (reg.words.getD i Word.init).access = 0
  · rw [if_pos h0] at h
    cases h
    exact Or.inl ⟨h0, rfl, rfl⟩
  · rw [if_neg h0] at h
    by_cases hown : (reg.words.getD i Word.init).access = t.t_id
    · rw [if_pos hown] at h
      cases h
      exact Or.inr ⟨h0, hown, rfl, rfl⟩
    · rw [if_neg hown] at h
      exact absurd h (by simp)

/-- Frame helper: a successful `tm_write` loop by one transaction that never
targets word `i` leaves word `i`'s slot, the transaction id and the
read-only flag unchanged. -/
theorem tm_write_ok_frame (i : Nat) (l : List (Nat × Nat)) :
    ∀ (reg : Region) (tran : Transaction) (reg3 : Region) (tran3 : Transaction),
      (∀ p, p ∈ l → p.1 ≠ i) →
      tm_write reg tran l = (true, reg3, some tran3) →
      reg3.words.getD i Word.init = reg.words.getD i Word.init ∧
      tran3.t_id = tran.t_id ∧ tran3.is_ro = tran.is_ro := by
  induction l with
  | nil =>
    intro reg tran reg3 tran3 _ hloop
    simp only [tm_write, Prod.mk.injEq, Option.some.injEq] at hloop
    rw [hloop.2.1, hloop.2.2]
    exact ⟨rfl, rfl, rfl⟩
  | cons hd rest ih =>
    intro reg tran reg3 tran3 hne hloop
    rcases hd with ⟨j, u⟩
    have hji : j ≠ i := hne (j, u) (List.mem_cons_self _ _)
    cases hres : tm_write_word reg tran j u with
    | ok reg2 tran2 =>
      have heq : tm_write reg tran ((j, u) :: rest) = tm_write reg2 tran2 rest := by
        simp only [tm_write, hres]
      rw [heq] at hloop
      have hstep : reg2.words.getD i Word.init = reg.words.getD i Word.init ∧
          tran2.t_id = tran.t_id ∧ tran2.is_ro = tran.is_ro := by
        rcases tm_write_word_ok_shape reg tran j u reg2 tran2 hres with
          ⟨_, hreg, ht2⟩ | ⟨_, _, hreg, ht2⟩ <;>
          (subst hreg; subst ht2;
           exact ⟨getD_set_ne reg.words i j _ Word.init hji, rfl, rfl⟩)
      obtain ⟨h1, h2, h3⟩ := ih reg2 tran2 reg3 tran3
        (fun p hp => hne p (List.mem_cons_of_mem _ hp)) hloop
      exact ⟨h1.trans hstep.1, h2.trans hstep.2.1, h3.trans hstep.2.2⟩
    | abort reg2 =>
      have heq : tm_write reg tran ((j, u) :: rest) = (false, reg2, none) := by
        simp only [tm_write, hres]
      rw [heq] at hloop
      exact absurd hloop (by simp)

/-- C4 — read-your-own-write: in a read-write transaction, a successful
`tm_write` of value `x` to an aligned word, followed in the same transaction
by further successful writes that never target that word, followed by a
`tm_read` of that word, returns exactly `x`. -/
theorem write_then_read_same (reg : Region) (tran : Transaction) (i x : Nat)
    (hro : tran.is_ro = false) (hi : i < reg.words.length)
    (reg2 : Region) (tran2 : Transaction)
    (hw : tm_write_word reg tran i x = WriteRes.ok reg2 tran2)
    (l : List (Nat × Nat)) (hl : ∀ p, p ∈ l → p.1 ≠ i)
    (reg3 : Region) (tran3 : Transaction)
    (hloop : tm_write reg2 tran2 l = (true, reg3, some tran3)) :
    tm_read_word reg3 tran3 i = ReadRes.ok x := by
  obtain ⟨hslot, hid3, hro3⟩ := tm_write_ok_frame i l reg2 tran2 reg3 tran3 hl hloop
  have hacc : (reg2.words.getD i Word.init).access = tran2.t_id ∧
      writeCopy (reg2.words.getD i Word.init) = x ∧ tran2.is_ro = false := by
    simp only [tm_write_word] at hw
    by_cases h0 : (reg.words.getD i Word.init).access = 0
    · rw [if_pos h0] at hw
      cases hw
      refine ⟨?_, ?_, hro⟩
      · rw [getD_set_self _ _ _ _ hi, access_setWriteCopy]
      · rw [getD_set_self _ _ _ _ hi, writeCopy_setWriteCopy]
    · rw [if_neg h0] at hw
      by_cases hown : (reg.words.getD i Word.init).access = tran.t_id
      · rw [if_pos hown] at hw
        cases hw
        refine ⟨?_, ?_, hro⟩
        · rw [getD_set_self _ _ _ _ hi, access_setWriteCopy, hown]
        · rw [getD_set_self _ _ _ _ hi, writeCopy_setWriteCopy]
      · rw [if_neg hown] at hw
        exact absurd hw (by simp)
  rcases hacc with ⟨hacc, hcopy, hro2⟩
  simp only [tm_read_word]
  rw [hslot, if_neg (by simp [hro3.trans hro2]), if_pos (hacc.trans hid3.symm),
    hcopy]

/-- State after transaction 1 wrote 9 to word 1 of a two-word region (used
by the C4 witness). -/
def c4_regW : Region :=
  { tm_create 24 16 8 with
    words := (tm_create 24 16 8).words.set 1
      (setWriteCopy
        { (tm_create 24 16 8).words.getD 1 Word.init with access := 1 } 9) }

def c4_tranW : Transaction := { t_id := 1, is_ro := false, writes := [] ++ [1] }

/-- Witness for C4 at a concrete input: transaction 1 writes 9 to word 1 of
a two-word region and reads 9 back. -/
theorem write_then_read_same_witness :
    tm_read_word c4_regW c4_tranW 1 = ReadRes.ok 9 :=
  write_then_read_same (tm_create 24 16 8)
    { t_id := 1, is_ro := false, writes := [] } 1 9 rfl (by decide)
    c4_regW c4_tranW (by decide) []
    (fun p hp => absurd hp (List.not_mem_nil p))
    c4_regW c4_tranW rfl

/-! Concrete scenario used for C1: `create(16,8)`, a read-write transaction
writes 1 to word 0 and commits as the last member of its batch (so the
epoch commit runs), then a read-only transaction of the next batch reads
word 0. -/

def c1_reg0 : Region := tm_create 24 16 8

def c1_t1 : Transaction := { t_id := 1, is_ro := false, writes := [] }

def c1_reg1 : Region :=
  ((tm_begin false c1_reg0).getD (c1_t1, c1_reg0)).2

def c1_reg2 : Region := (tm_write c1_reg1 c1_t1 [(0, 1)]).2.1

def c1_t1w : Transaction :=
  ((tm_write c1_reg1 c1_t1 [(0, 1)]).2.2).getD c1_t1

def c1_reg3 : Region := (tm_end c1_reg2 c1_t1w).2

def c1_t2 : Transaction := { t_id := 2, is_ro := true, writes := [] }

def c1_reg4 : Region :=
  ((tm_begin true c1_reg3).getD (c1_t2, c1_reg3)).2

/-- C1 — the epoch commit does not publish the committed write: in the
concrete run, transaction 1 writes 1 to word 0 and commits (its `tm_end`
triggers the epoch commit), yet the read-only transaction of the next batch
reads 0, not 1.  The committed value 1 sits in the unpublished copy at
offset `align` (`copyB`), because `end_epoch` flipped the control byte at
offset `2*align + sizeof(atomic_uint) + 3` (`readVer3`, now `true`) while
`tm_read` selects the read copy by the byte at offset
`2*align + sizeof(atomic_uint) + 1` (`readVer1`, still `false`). -/
theorem epoch_commit_loses_publication :
    tm_begin false c1_reg0 = some (c1_t1, c1_reg1) ∧
    tm_write c1_reg1 c1_t1 [(0, 1)] = (true, c1_reg2, some c1_t1w) ∧
    tm_end c1_reg2 c1_t1w = (true, c1_reg3) ∧
    tm_begin true c1_reg3 = some (c1_t2, c1_reg4) ∧
    (tm_read c1_reg4 c1_t2 [0]).1 = some [0] ∧
    (c1_reg4.words.getD 0 Word.init).copyB = 1 ∧
    readCopy (c1_reg4.words.getD 0 Word.init) = 0 ∧
    (c1_reg4.words.getD 0 Word.init).readVer1 = false ∧
    (c1_reg4.words.getD 0 Word.init).readVer3 = true ∧
    (0 : Nat) ≠ 1 := by
  decide

/-! Concrete scenario used for C5 and C6: two read-write transactions race
on word 0 of a `create(16,8)` region. -/

def c5_t1 : Transaction := { t_id := 1, is_ro := false, writes := [] }

def c5_t2 : Transaction := { t_id := 2, is_ro := false, writes := [] }

def c5_reg2 : Region :=
  { tm_create 24 16 8 with
    tran_counter := 2, batcher := { remaining := 2, wait := false } }

def c5_w1 : Bool × Region × Option Transaction :=
  tm_write c5_reg2 c5_t1 [(0, 42)]

def c5_w2 : Bool × Region × Option Transaction :=
  tm_write c5_w1.2.1 c5_t2 [(0, 7)]

/-- C5 counterexample — `tm_end` never returns false: in the concrete race
on word 0, transaction 1 wins the access CAS, transaction 2 loses and its
`tm_write` returns false, but `tm_end` evaluates to true for BOTH
transactions (in particular for the loser), so the claim that one of the two
`tm_end` calls returns false fails. -/
theorem tm_end_never_false_in_race :
    c5_w1.1 = true ∧
    c5_w2.1 = false ∧
    (tm_end c5_w1.2.1 (c5_w1.2.2.getD c5_t1)).1 = true ∧
    (tm_end c5_w2.2.1 c5_t2).1 = true := by
  decide

/-- C5 amended — when two read-write transactions race on the same word,
exactly one commits: the first writer's `tm_write` succeeds and takes the
word, the second writer's `tm_write` returns false and tears the loser down;
the loser's false surfaces at `tm_write`, not at `tm_end`, because `tm_end`
returns true unconditionally. -/
theorem race_loser_false_at_write (reg : Region) (t1 t2 : Transaction)
    (i v1 v2 : Nat) (hi : i < reg.words.length)
    (h0 : (reg.words.getD i Word.init).access = 0)
    (hid1 : t1.t_id ≠ 0) (hid12 : t2.t_id ≠ t1.t_id) :
    (∀ r t, (tm_end r t).1 = true) ∧
    (tm_write reg t1 [(i, v1)]).1 = true ∧
    (tm_write reg t1 [(i, v1)]).2.2 =
      some { t1 with writes := t1.writes ++ [i] } ∧
    (tm_write (tm_write reg t1 [(i, v1)]).2.1 t2 [(i, v2)]).1 = false ∧
    (tm_write (tm_write reg t1 [(i, v1)]).2.1 t2 [(i, v2)]).2.2 = none := by
  have hw1 : tm_write reg t1 [(i, v1)] =
      (true,
       { reg with
         words := reg.words.set i
           (setWriteCopy { reg.words.getD i Word.init with access := t1.t_id } v1) },
       some { t1 with writes := t1.writes ++ [i] }) := by
    simp only [tm_write, tm_write_word]
    rw [if_pos h0]
  have hacc : (((tm_write reg t1 [(i, v1)]).2.1).words.getD i Word.init).access
      = t1.t_id := by
    rw [hw1]
    rw [getD_set_self _ _ _ _ hi, access_setWriteCopy]
  have hw2 : ∀ r : Region, ((r.words.getD i Word.init)).access = t1.t_id →
      (tm_write r t2 [(i, v2)]).1 = false ∧
      (tm_write r t2 [(i, v2)]).2.2 = none := by
    intro r hr
    simp only [tm_write, tm_write_word]
    rw [if_neg (by rw [hr]; exact hid1),
      if_neg (by rw [hr]; exact fun h => hid12 h.symm)]
    exact ⟨rfl, rfl⟩
  refine ⟨fun r t => by simp only [tm_end], ?_, ?_, (hw2 _ hacc).1, (hw2 _ hacc).2⟩
  · rw [hw1]
  · rw [hw1]

/-- Witness for the amended C5 at the concrete race. -/
theorem race_loser_false_at_write_witness :
    (∀ r t, (tm_end r t).1 = true) ∧
    (tm_write c5_reg2 c5_t1 [(0, 42)]).1 = true ∧
    (tm_write c5_reg2 c5_t1 [(0, 42)]).2.2 =
      some { c5_t1 with writes := c5_t1.writes ++ [0] } ∧
    (tm_write (tm_write c5_reg2 c5_t1 [(0, 42)]).2.1 c5_t2 [(0, 7)]).1 = false ∧
    (tm_write (tm_write c5_reg2 c5_t1 [(0, 42)]).2.1 c5_t2 [(0, 7)]).2.2 = none :=
  race_loser_false_at_write c5_reg2 c5_t1 c5_t2 0 42 7 (by decide) (by decide)
    (by decide) (by decide)

/-! Helper lemmas for the conflict claims. -/

theorem tm_write_word_ok_writes (reg : Region) (tran : Transaction)
    (i v : Nat) (reg2 : Region) (tran2 : Transaction)
    (hw : tm_write_word reg tran i v = WriteRes.ok reg2 tran2) :
    ∀ j, j ∈ tran.writes → j ∈ tran2.writes := by
  simp only [tm_write_word] at hw
  by_cases h0 : (reg.words.getD i Word.init).access = 0
  · rw [if_pos h0] at hw
    cases hw
    intro j hj
    exact List.mem_append_left _ hj
  · rw [if_neg h0] at hw
    by_cases hown : (reg.words.getD i Word.init).access = tran.t_id
    · rw [if_pos hown] at hw
      cases hw
      exact fun j hj => hj
    · rw [if_neg hown] at hw
      exact absurd hw (by simp)

theorem tm_write_word_abort_release (reg : Region) (tran : Transaction)
    (i v : Nat) (reg2 : Region)
    (hw : tm_write_word reg tran i v = WriteRes.abort reg2) :
    ∀ j, j ∈ tran.writes → ((reg2.words.getD j Word.init)).access = 0 := by
  simp only [tm_write_word] at hw
  by_cases h0 : (reg.words.getD i Word.init).access = 0
  · rw [if_pos h0] at hw
    exact absurd hw (by simp)
  · rw [if_neg h0] at hw
    by_cases hown : (reg.words.getD i Word.init).access = tran.t_id
    · rw [if_pos hown] at hw
      exact absurd hw (by simp)
    · rw [if_neg hown] at hw
      cases hw
      intro j hj
      exact leave_access_zero true _ j (clear_writes_access_zero _ _ j (Or.inl hj))

theorem tm_read_word_abort_release (reg : Region) (tran : Transaction)
    (i : Nat) (reg2 : Region)
    (hr : tm_read_word reg tran i = ReadRes.abort reg2) :
    ∀ j, j ∈ tran.writes → ((reg2.words.getD j Word.init)).access = 0 := by
  simp only [tm_read_word] at hr
  by_cases hro : tran.is_ro
  · rw [if_pos hro] at hr
    exact absurd hr (by simp)
  · rw [if_neg hro] at hr
    by_cases hown : (reg.words.getD i Word.init).access = tran.t_id
    · rw [if_pos hown] at hr
      exact absurd hr (by simp)
    · rw [if_neg hown] at hr
      by_cases h0 : (reg.words.getD i Word.init).access = 0
      · rw [if_pos h0] at hr
        exact absurd hr (by simp)
      · rw [if_neg h0] at hr
        cases hr
        intro j hj
        exact leave_access_zero true _ j (clear_writes_access_zero _ _ j (Or.inl hj))

theorem tm_write_false_release (l : List (Nat × Nat)) :
    ∀ (reg : Region) (tran : Transaction), (tm_write reg tran l).1 = false →
      (tm_write reg tran l).2.2 = none ∧
      ∀ j, j ∈ tran.writes →
        (((tm_write reg tran l).2.1).words.getD j Word.init).access = 0 := by
  induction l with
  | nil =>
    intro reg tran hfalse
    exact absurd hfalse (by simp [tm_write])
  | cons hd rest ih =>
    intro reg tran hfalse
    rcases hd with ⟨i, v⟩
    cases hres : tm_write_word reg tran i v with
    | ok reg2 tran2 =>
      have heq : tm_write reg tran ((i, v) :: rest) = tm_write reg2 tran2 rest := by
        simp only [tm_write, hres]
      rw [heq] at hfalse ⊢
      refine ⟨(ih reg2 tran2 hfalse).1, fun j hj => ?_⟩
      exact (ih reg2 tran2 hfalse).2 j
        (tm_write_word_ok_writes reg tran i v reg2 tran2 hres j hj)
    | abort reg2 =>
      have heq : tm_write reg tran ((i, v) :: rest) = (false, reg2, none) := by
        simp only [tm_write, hres]
      rw [heq]
      exact ⟨rfl, fun j hj =>
        tm_write_word_abort_release reg tran i v reg2 hres j hj⟩

theorem tm_read_none_release (l : List Nat) :
    ∀ (reg : Region) (tran : Transaction), (tm_read reg tran l).1 = none →
      (tm_read reg tran l).2.2 = none ∧
      ∀ j, j ∈ tran.writes →
        (((tm_read reg tran l).2.1).words.getD j Word.init).access = 0 := by
  induction l with
  | nil =>
    intro reg tran hfalse
    exact absurd hfalse (by simp [tm_read])
  | cons i rest ih =>
    intro reg tran hfalse
    cases hres : tm_read_word reg tran i with
    | ok v =>
      have heq : tm_read reg tran (i :: rest) =
          match tm_read reg tran rest with
          | (some vs, reg2, t2) => (some (v :: vs), reg2, t2)
          | (none, reg2, t2) => (none, reg2, t2) := by
        simp only [tm_read, hres]
      rcases hrest : tm_read reg tran rest with ⟨ov, reg3, t3⟩
      rcases ov with _ | vs
      · have hres3 : tm_read reg tran (i :: rest) = (none, reg3, t3) := by
          rw [heq, hrest]
        rw [hres3]
        have hih := ih reg tran (by rw [hrest])
        rw [hrest] at hih
        exact hih
      · have hres3 : tm_read reg tran (i :: rest) = (some (v :: vs), reg3, t3) := by
          rw [heq, hrest]
        rw [hres3] at hfalse
        exact absurd hfalse (by simp)
    | abort reg2 =>
      have heq : tm_read reg tran (i :: rest) = (none, reg2, none) := by
        simp only [tm_read, hres]
      rw [heq]
      exact ⟨rfl, fun j hj =>
        tm_read_word_abort_release reg tran i reg2 hres j hj⟩

/-- C6 — conflicts are surfaced as a false return and cleaned up first:
whenever `tm_write` returns false (an ownership CAS lost to another
transaction) or `tm_read` returns no data (a read saw a foreign owner), the
returned state has the transaction torn down (no surviving transaction
object) and the access token of every word the transaction owned released to
the no-owner value 0. -/
theorem conflict_false_teardown_release (reg : Region) (tran : Transaction) :
    (∀ l, (tm_write reg tran l).1 = false →
      (tm_write reg tran l).2.2 = none ∧
      ∀ j, j ∈ tran.writes →
        (((tm_write reg tran l).2.1).words.getD j Word.init).access = 0) ∧
    (∀ l, (tm_read reg tran l).1 = none →
      (tm_read reg tran l).2.2 = none ∧
      ∀ j, j ∈ tran.writes →
        (((tm_read reg tran l).2.1).words.getD j Word.init).access = 0) :=
  ⟨fun l h => tm_write_false_release l reg tran h,
   fun l h => tm_read_none_release l reg tran h⟩

/-- Witness for C6 at the concrete race: the loser of the word-0 race is
torn down and word 0 was not owned by it (its owned set is empty, trivially
released); a richer instance: transaction 2 owns word 1, then conflicts on
word 0 — after the false return word 1's token is 0 again. -/
theorem conflict_false_teardown_release_witness :
    (tm_write
      { c5_w1.2.1 with
        words := c5_w1.2.1.words.set 1
          (setWriteCopy { c5_w1.2.1.words.getD 1 Word.init with access := 2 } 5) }
      { t_id := 2, is_ro := false, writes := [1] } [(0, 7)]).2.2 = none ∧
    (((tm_write
      { c5_w1.2.1 with
        words := c5_w1.2.1.words.set 1
          (setWriteCopy { c5_w1.2.1.words.getD 1 Word.init with access := 2 } 5) }
      { t_id := 2, is_ro := false, writes := [1] } [(0, 7)]).2.1).words.getD 1
        Word.init).access = 0 := by
  have h := (conflict_false_teardown_release
    { c5_w1.2.1 with
      words := c5_w1.2.1.words.set 1
        (setWriteCopy { c5_w1.2.1.words.getD 1 Word.init with access := 2 } 5) }
    { t_id := 2, is_ro := false, writes := [1] }).1 [(0, 7)] (by decide)
  exact ⟨h.1, h.2 1 (by decide)⟩

/-- C7 — the Batcher protocol: entering read-only always proceeds; entering
read-write blocks exactly while `wait` is raised; `leave(failed)` raises
`wait` when `failed`, and when `remaining` is brought from 1 to 0 the leaver
runs the epoch commit on the written words, clears `wait` (releasing blocked
newcomers), while any other leaver only decrements `remaining` (leaving the
raised `wait` in place). -/
theorem batcher_enter_leave_protocol :
    (∀ b : Batcher, Batcher.enter true b =
      some { b with remaining := b.remaining + 1 }) ∧
    (∀ b : Batcher, b.wait = true → Batcher.enter false b = none) ∧
    (∀ b : Batcher, b.wait = false → Batcher.enter false b =
      some { b with remaining := b.remaining + 1 }) ∧
    (∀ (reg : Region) (failed : Bool), reg.batcher.remaining = 1 →
      (Batcher.leave failed reg).batcher.remaining = 0 ∧
      (Batcher.leave failed reg).batcher.wait = false ∧
      (Batcher.leave failed reg).words = (end_epoch reg).words ∧
      (Batcher.leave failed reg).written = []) ∧
    (∀ (reg : Region) (failed : Bool), reg.batcher.remaining ≠ 1 →
      (Batcher.leave failed reg).batcher.remaining =
        reg.batcher.remaining - 1 ∧
      (Batcher.leave failed reg).batcher.wait = (failed || reg.batcher.wait) ∧
      (Batcher.leave failed reg).words = reg.words ∧
      (Batcher.leave failed reg).written = reg.written) := by
  refine ⟨fun b => ?_, fun b hw => ?_, fun b hw => ?_,
    fun reg failed h1 => ?_, fun reg failed h1 => ?_⟩
  · simp [Batcher.enter]
  · simp [Batcher.enter, hw]
  · simp [Batcher.enter, hw]
  · have hrem : (if failed then { reg.batcher with wait := true }
        else reg.batcher).remaining = 1 := by
      cases failed <;> simpa using h1
    simp only [Batcher.leave]
    rw [if_pos hrem]
    exact ⟨rfl, rfl, rfl, rfl⟩
  · have hrem : (if failed then { reg.batcher with wait := true }
        else reg.batcher).remaining ≠ 1 := by
      cases failed <;> simpa using h1
    simp only [Batcher.leave]
    rw [if_neg hrem]
    cases failed <;> simp

/-- Witness for C7 at a concrete state: a lone leaver with one written word
commits the epoch; a non-last failed leaver decrements and leaves `wait`
raised. -/
theorem batcher_enter_leave_protocol_witness :
    Batcher.enter true { remaining := 3, wait := true } =
      some { remaining := 4, wait := true } ∧
    Batcher.enter false { remaining := 3, wait := true } = none ∧
    (Batcher.leave true
      { c5_w1.2.1 with batcher := { remaining := 2, wait := false } }
      ).batcher.wait = (true || false) := by
  refine ⟨?_, ?_, ?_⟩
  · exact batcher_enter_leave_protocol.1 { remaining := 3, wait := true }
  · exact batcher_enter_leave_protocol.2.1 { remaining := 3, wait := true } rfl
  · exact (batcher_enter_leave_protocol.2.2.2.2
      { c5_w1.2.1 with batcher := { remaining := 2, wait := false } } true
      (by decide)).2.1

/-- Success projection of a read step: the copied value, or `none` on
abort. -/
def ReadRes.val? : ReadRes → Option Nat
  | ReadRes.ok v => some v
  | ReadRes.abort _ => none

/-! Concrete scenario used for C9 (scenario 3 of the spec): `create(16,8)`;
T1 allocates a segment `p` and commits; T2 frees `p` and commits; T3
(read-only) reads `p`.  `MAX_SIZE` is taken as 1000 and `sizeof(Word)` as
24. -/

def c9_reg0 : Region := tm_create 24 16 8

def c9_t1 : Transaction := { t_id := 1, is_ro := false, writes := [] }

def c9_reg1 : Region := ((tm_begin false c9_reg0).getD (c9_t1, c9_reg0)).2

def c9_alloc : Alloc × Region × Transaction × Option Nat :=
  tm_alloc 1000 24 c9_reg1 c9_t1 8

def c9_p : Nat := (c9_alloc.2.2.2).getD 0

def c9_reg3 : Region := (tm_end c9_alloc.2.1 c9_t1).2

def c9_t2 : Transaction := { t_id := 2, is_ro := false, writes := [] }

def c9_reg4 : Region := ((tm_begin false c9_reg3).getD (c9_t2, c9_reg3)).2

def c9_free : Bool × Region × Transaction := tm_free c9_reg4 c9_t2 c9_p

def c9_reg5 : Region := (tm_end c9_free.2.1 c9_t2).2

def c9_t3 : Transaction := { t_id := 3, is_ro := true, writes := [] }

def c9_reg6 : Region := ((tm_begin true c9_reg5).getD (c9_t3, c9_reg5)).2

/-- C9 counterexample — a committed free does not make the segment
unresolvable: in the concrete scenario, T1's allocation succeeds and commits,
T2's `tm_free` of the segment commits, yet `tm_free` left the region
completely unchanged and the read-only transaction T3 of a later batch still
reads the freed segment successfully (the claim requires that read to
fail). -/
theorem committed_free_keeps_segment_readable :
    c9_alloc.1 = Alloc.success ∧
    c9_p = 384 ∧
    c9_free.1 = true ∧
    c9_free.2.1 = c9_reg4 ∧
    (tm_read c9_reg6 c9_t3 [get_word_index 8 c9_p]).1 = some [0] ∧
    (tm_read c9_reg6 c9_t3 [get_word_index 8 c9_p]).1 ≠ none := by
  decide

/-- C9 amended — allocation and free are not transactional in this code:
`tm_free` is a no-op returning true, so a freed segment stays resolvable
(reads of it keep succeeding, whether or not the freeing transaction
committed); `tm_alloc` only advances the bump-allocator bookkeeping, never
touches any word slot, and the handed-out segment is backed by the
pre-mapped arena from the moment `tm_alloc` returns, independently of
commit, abort or the epoch commit. -/
theorem alloc_free_not_transactional :
    (∀ (reg : Region) (tran : Transaction) (p : Nat),
      tm_free reg tran p = (true, reg, tran)) ∧
    (∀ (maxSize sow : Nat) (reg : Region) (tran : Transaction) (sz : Nat),
      ((tm_alloc maxSize sow reg tran sz).2.1).words = reg.words ∧
      ((tm_alloc maxSize sow reg tran sz).2.1).written = reg.written ∧
      ((tm_alloc maxSize sow reg tran sz).2.1).batcher = reg.batcher ∧
      (tm_alloc maxSize sow reg tran sz).2.2.1 = tran) ∧
    (∀ (maxSize sow : Nat) (reg : Region) (tran tran2 : Transaction)
        (sz i : Nat),
      ReadRes.val?
        (tm_read_word ((tm_alloc maxSize sow reg tran sz).2.1) tran2 i) =
      ReadRes.val? (tm_read_word reg tran2 i)) := by
  refine ⟨fun reg tran p => rfl, fun maxSize sow reg tran sz => ?_,
    fun maxSize sow reg tran tran2 sz i => ?_⟩
  · unfold tm_alloc
    by_cases h : maxSize < reg.tot_size + sz
    · rw [if_pos h]
      exact ⟨rfl, rfl, rfl, rfl⟩
    · rw [if_neg h]
      exact ⟨rfl, rfl, rfl, rfl⟩
  · have hwords : ((tm_alloc maxSize sow reg tran sz).2.1).words = reg.words := by
      unfold tm_alloc
      by_cases h : maxSize < reg.tot_size + sz
      · rw [if_pos h]
      · rw [if_neg h]
    simp only [tm_read_word, hwords]
    by_cases hro : tran2.is_ro
    · rw [if_pos hro, if_pos hro]
    · rw [if_neg hro, if_neg hro]
      by_cases hown : (reg.words.getD i Word.init).access = tran2.t_id
      · rw [if_pos hown, if_pos hown]
      · rw [if_neg hown, if_neg hown]
        by_cases h0 : (reg.words.getD i Word.init).access = 0
        · rw [if_pos h0, if_pos h0]
        · rw [if_neg h0, if_neg h0]
          rfl

/-- C10 — `tm_alloc` never aborts: its result is `success` or `nomem`;
`nomem` is returned exactly when the accumulated allocated size plus the
request exceeds the arena capacity `MAX_SIZE`, and then nothing changes; on
`success` the caller receives the current `next_segment`, which advances by
`size*sizeof(Word)` while `tot_size` grows by `size`; the transaction is
never torn down, no word slot is touched, and the arena created by
`tm_create` is zero-initialized. -/
theorem tm_alloc_success_or_nomem (maxSize sow : Nat) (reg : Region)
    (tran : Transaction) (sz : Nat) :
    (tm_alloc maxSize sow reg tran sz).1 ≠ Alloc.abort ∧
    (tm_alloc maxSize sow reg tran sz).2.2.1 = tran ∧
    ((tm_alloc maxSize sow reg tran sz).1 = Alloc.nomem ↔
      maxSize < reg.tot_size + sz) ∧
    ((tm_alloc maxSize sow reg tran sz).1 = Alloc.nomem →
      (tm_alloc maxSize sow reg tran sz).2.1 = reg ∧
      (tm_alloc maxSize sow reg tran sz).2.2.2 = none) ∧
    ((tm_alloc maxSize sow reg tran sz).1 = Alloc.success →
      (tm_alloc maxSize sow reg tran sz).2.1 =
        { reg with
          next_segment := reg.next_segment + sz * sow
          tot_size := reg.tot_size + sz } ∧
      (tm_alloc maxSize sow reg tran sz).2.2.2 = some reg.next_segment) ∧
    (∀ j, (tm_create sow reg.size reg.align).words.getD j Word.init =
      Word.init) := by
  by_cases h : maxSize < reg.tot_size + sz
  · have heq : tm_alloc maxSize sow reg tran sz = (Alloc.nomem, reg, tran, none) := by
      unfold tm_alloc
      rw [if_pos h]
    rw [heq]
    refine ⟨by simp, rfl, by simpa using h, fun _ => ⟨rfl, rfl⟩,
      fun hc => absurd hc (by simp), fun j => ?_⟩
    simp only [tm_create]
    rcases Decidable.em (j < reg.size / reg.align) with hj | hj
    · rw [List.getD_eq_getElem?_getD, List.getElem?_replicate]
      simp [hj]
    · rw [List.getD_eq_getElem?_getD, List.getElem?_eq_none (by simpa using Nat.le_of_not_lt hj)]
      rfl
  · have heq : tm_alloc maxSize sow reg tran sz =
        (Alloc.success,
         { reg with
           next_segment := reg.next_segment + sz * sow
           tot_size := reg.tot_size + sz },
         tran, some reg.next_segment) := by
      unfold tm_alloc
      rw [if_neg h]
    rw [heq]
    refine ⟨by simp, rfl, by simpa using h, fun hc => absurd hc (by simp),
      fun _ => ⟨rfl, rfl⟩, fun j => ?_⟩
    simp only [tm_create]
    rcases Decidable.em (j < reg.size / reg.align) with hj | hj
    · rw [List.getD_eq_getElem?_getD, List.getElem?_replicate]
      simp [hj]
    · rw [List.getD_eq_getElem?_getD, List.getElem?_eq_none (by simpa using Nat.le_of_not_lt hj)]
      rfl

/-- Witness for C10 at concrete inputs: a request that fits succeeds and
advances the bump pointer; the `nomem` bound is exact. -/
theorem tm_alloc_success_or_nomem_witness :
    (tm_alloc 1000 24 c9_reg1 c9_t1 8).1 ≠ Alloc.abort ∧
    ((tm_alloc 1000 24 c9_reg1 c9_t1 8).1 = Alloc.nomem ↔
      (1000 : Nat) < c9_reg1.tot_size + 8) ∧
    (tm_alloc 1000 24 c9_reg1 c9_t1 8).1 = Alloc.success := by
  have h := tm_alloc_success_or_nomem 1000 24 c9_reg1 c9_t1 8
  exact ⟨h.1, h.2.2.1, by decide⟩

/-! Trace-level model for the batch invariant: a system state is the region
together with the list of live (entered, not yet left) transactions; each
transition is one atomic operation of the source (one per-word iteration of
`tm_read`/`tm_write`, one `tm_begin`, one `tm_end`, one `tm_alloc` — a full
loop call is a sequence of such transitions, and `tm_free` does not change
the state at all). -/

structure Sys where
  reg : Region
  active : List Transaction

/-- The state right after `tm_create`: a zero-filled arena and an empty
batch. -/
def Sys.init (sow size align : Nat) : Sys :=
  { reg := tm_create sow size align, active := [] }

inductive Step : Sys → Sys → Prop where
  | begin_tx (s : Sys) (is_ro : Bool) (tran : Transaction) (reg2 : Region) :
      tm_begin is_ro s.reg = some (tran, reg2) →
      Step s { reg := reg2, active := tran :: s.active }
  | write_ok (s : Sys) (l1 l2 : List Transaction) (t t2 : Transaction)
      (i v : Nat) (reg2 : Region) :
      s.active = l1 ++ t :: l2 → t.is_ro = false →
      tm_write_word s.reg t i v = WriteRes.ok reg2 t2 →
      Step s { reg := reg2, active := l1 ++ t2 :: l2 }
  | write_abort (s : Sys) (l1 l2 : List Transaction) (t : Transaction)
      (i v : Nat) (reg2 : Region) :
      s.active = l1 ++ t :: l2 → t.is_ro = false →
      tm_write_word s.reg t i v = WriteRes.abort reg2 →
      Step s { reg := reg2, active := l1 ++ l2 }
  | read_abort (s : Sys) (l1 l2 : List Transaction) (t : Transaction)
      (i : Nat) (reg2 : Region) :
      s.active = l1 ++ t :: l2 →
      tm_read_word s.reg t i = ReadRes.abort reg2 →
      Step s { reg := reg2, active := l1 ++ l2 }
  | end_tx (s : Sys) (l1 l2 : List Transaction) (t : Transaction) :
      s.active = l1 ++ t :: l2 →
      Step s { reg := (tm_end s.reg t).2, active := l1 ++ l2 }
  | alloc (s : Sys) (maxSize sow sz : Nat) (t : Transaction) :
      Step s { reg := (tm_alloc maxSize sow s.reg t sz).2.1, active := s.active }

/-- Reachability from the freshly created region. -/
def Reach (s0 s : Sys) : Prop :=
  Relation.ReflTransGen Step s0 s

/-- The inductive invariant: `remaining` counts the live transactions; the
`written` list is empty between batches; every owned access token belongs to
a live transaction that recorded the word, or the word is pending in
`written`; read-only transactions own nothing. -/
structure Inv (s : Sys) : Prop where
  rem_eq : s.reg.batcher.remaining = (s.active.length : Int)
  written_nil : s.active = [] → s.reg.written = []
  access_owned : ∀ i : Nat, ((s.reg.words.getD i Word.init)).access ≠ 0 →
    (∃ t, t ∈ s.active ∧
      (s.reg.words.getD i Word.init).access = t.t_id ∧ i ∈ t.writes) ∨
    i ∈ s.reg.written
  ro_no_writes : ∀ t, t ∈ s.active → t.is_ro = true → t.writes = []

/-! Shape lemmas: each transition equation pins down the post-state. -/

theorem tm_begin_some_shape (is_ro : Bool) (reg : Region) (tran : Transaction)
    (reg2 : Region) (h : tm_begin is_ro reg = some (tran, reg2)) :
    tran = { t_id := reg.tran_counter + 1, is_ro := is_ro, writes := [] } ∧
    reg2 = { reg with
      tran_counter := reg.tran_counter + 1,
      batcher := { reg.batcher with remaining := reg.batcher.remaining + 1 } } := by
  simp only [tm_begin, Batcher.enter] at h
  by_cases hw : reg.batcher.wait && !is_ro
  · rw [if_pos hw] at h
    exact absurd h (by simp)
  · rw [if_neg hw] at h
    simp only [Option.some.injEq, Prod.mk.injEq] at h
    exact ⟨h.1.symm, h.2.symm⟩

theorem tm_write_word_abort_shape (reg : Region) (t : Transaction) (i v : Nat)
    (reg2 : Region) (h : tm_write_word reg t i v = WriteRes.abort reg2) :
    reg2 = Batcher.leave true { reg with words := clear_writes reg.words t.writes } := by
  simp only [tm_write_word] at h
  by_cases h0 : (reg.words.getD i Word.init).access = 0
  · rw [if_pos h0] at h
    exact absurd h (by simp)
  · rw [if_neg h0] at h
    by_cases hown : (reg.words.getD i Word.init).access = t.t_id
    · rw [if_pos hown] at h
      exact absurd h (by simp)
    · rw [if_neg hown] at h
      cases h
      rfl

theorem tm_read_word_abort_shape (reg : Region) (t : Transaction) (i : Nat)
    (reg2 : Region) (h : tm_read_word reg t i = ReadRes.abort reg2) :
    reg2 = Batcher.leave true { reg with words := clear_writes reg.words t.writes } := by
  simp only [tm_read_word] at h
  by_cases hro : t.is_ro
  · rw [if_pos hro] at h
    exact absurd h (by simp)
  · rw [if_neg hro] at h
    by_cases hown : (reg.words.getD i Word.init).access = t.t_id
    · rw [if_pos hown] at h
      exact absurd h (by simp)
    · rw [if_neg hown] at h
      by_cases h0 : (reg.words.getD i Word.init).access = 0
      · rw [if_pos h0] at h
        exact absurd h (by simp)
      · rw [if_neg h0] at h
        cases h
        rfl

/-! Case facts for `Batcher.leave` reused across the invariant proof. -/

theorem leave_cas_facts (failed : Bool) (reg : Region)
    (h : reg.batcher.remaining = 1) :
    (Batcher.leave failed reg).batcher.remaining = 0 ∧
    (Batcher.leave failed reg).written = [] ∧
    (∀ j, j ∈ reg.written →
      ((Batcher.leave failed reg).words.getD j Word.init).access = 0) ∧
    (∀ j, j ∉ reg.written →
      (Batcher.leave failed reg).words.getD j Word.init =
        reg.words.getD j Word.init) := by
  have hrem : (if failed then { reg.batcher with wait := true }
      else reg.batcher).remaining = 1 := by
    cases failed <;> simpa using h
  simp only [Batcher.leave]
  rw [if_pos hrem]
  refine ⟨rfl, rfl, fun j hj => ?_, fun j hj => ?_⟩
  · exact end_epoch_access_zero _ j (Or.inl hj)
  · exact end_epoch_not_mem _ j hj

theorem leave_noncas_facts (failed : Bool) (reg : Region)
    (h : reg.batcher.remaining ≠ 1) :
    (Batcher.leave failed reg).batcher.remaining = reg.batcher.remaining - 1 ∧
    (Batcher.leave failed reg).written = reg.written ∧
    (Batcher.leave failed reg).words = reg.words := by
  have hrem : (if failed then { reg.batcher with wait := true }
      else reg.batcher).remaining ≠ 1 := by
    cases failed <;> simpa using h
  simp only [Batcher.leave]
  rw [if_neg hrem]
  cases failed <;> exact ⟨rfl, rfl, rfl⟩

theorem mem_foldl_cons (l acc : List Nat) (j : Nat) :
    j ∈ l.foldl (fun a i => i :: a) acc ↔ j ∈ l ∨ j ∈ acc := by
  induction l generalizing acc with
  | nil => simp
  | cons i rest ih =>
    rw [List.foldl_cons, ih (i :: acc)]
    simp [List.mem_cons]
    tauto

theorem clear_writes_frame (ws : List Word) (writes : List Nat) (j : Nat) :
    (clear_writes ws writes).getD j Word.init = ws.getD j Word.init ∨
    ((clear_writes ws writes).getD j Word.init).access = 0 := by
  by_cases hj : j ∈ writes
  · exact Or.inr (clear_writes_access_zero ws writes j (Or.inl hj))
  · exact Or.inl (clear_writes_not_mem ws writes j hj)

theorem getD_set_cases (ws : List Word) (i : Nat) (x : Word) :
    ((ws.set i x).getD i Word.init = x ∧ i < ws.length) ∨
    ((ws.set i x).getD i Word.init = ws.getD i Word.init ∧ ¬ i < ws.length) := by
  by_cases h : i < ws.length
  · exact Or.inl ⟨getD_set_self ws i x _ h, h⟩
  · refine Or.inr ⟨?_, h⟩
    rw [List.getD_eq_getElem?_getD, List.getD_eq_getElem?_getD,
      List.getElem?_eq_none (by simpa using Nat.le_of_not_lt h),
      List.getElem?_eq_none (by simpa using Nat.le_of_not_lt h)]

theorem tm_alloc_state_frame (maxSize sow : Nat) (reg : Region)
    (tran : Transaction) (sz : Nat) :
    ((tm_alloc maxSize sow reg tran sz).2.1).words = reg.words ∧
    ((tm_alloc maxSize sow reg tran sz).2.1).written = reg.written ∧
    ((tm_alloc maxSize sow reg tran sz).2.1).batcher = reg.batcher := by
  unfold tm_alloc
  by_cases h : maxSize < reg.tot_size + sz
  · rw [if_pos h]
    exact ⟨rfl, rfl, rfl⟩
  · rw [if_neg h]
    exact ⟨rfl, rfl, rfl⟩

theorem inv_begin (s : Sys) (is_ro : Bool) (tran : Transaction) (reg2 : Region)
    (hInv : Inv s) (h : tm_begin is_ro s.reg = some (tran, reg2)) :
    Inv { reg := reg2, active := tran :: s.active } := by
  obtain ⟨htran, hreg⟩ := tm_begin_some_shape is_ro s.reg tran reg2 h
  subst htran
  subst hreg
  refine ⟨?_, ?_, ?_, ?_⟩
  · show s.reg.batcher.remaining + 1 = _
    rw [hInv.rem_eq]
    simp [List.length_cons]
  · intro habs
    exact absurd habs (by simp)
  · intro i hi
    rcases hInv.access_owned i hi with ⟨t, ht, hid, hw⟩ | hw
    · exact Or.inl ⟨t, List.mem_cons_of_mem _ ht, hid, hw⟩
    · exact Or.inr hw
  · intro t ht hro
    rcases List.mem_cons.mp ht with ht | ht
    · rw [ht]
    · exact hInv.ro_no_writes t ht hro

theorem inv_alloc (s : Sys) (maxSize sow sz : Nat) (t : Transaction)
    (hInv : Inv s) :
    Inv { reg := (tm_alloc maxSize sow s.reg t sz).2.1, active := s.active } := by
  obtain ⟨hw, hwr, hb⟩ := tm_alloc_state_frame maxSize sow s.reg t sz
  refine ⟨?_, ?_, ?_, ?_⟩
  · dsimp only
    rw [hb]
    exact hInv.rem_eq
  · intro habs
    dsimp only at habs ⊢
    rw [hwr]
    exact hInv.written_nil habs
  · intro i hi
    dsimp only at hi ⊢
    rw [hw] at hi
    rw [hw, hwr]
    exact hInv.access_owned i hi
  · intro t2 ht2 hro
    dsimp only at ht2
    exact hInv.ro_no_writes t2 ht2 hro

theorem inv_abort_common (s : Sys) (l1 l2 : List Transaction) (t : Transaction)
    (hInv : Inv s) (hact : s.active = l1 ++ t :: l2) :
    Inv { reg := Batcher.leave true
            { s.reg with words := clear_writes s.reg.words t.writes },
          active := l1 ++ l2 } := by
  have hlen : s.reg.batcher.remaining = ((l1.length + l2.length + 1 : Nat) : Int) := by
    rw [hInv.rem_eq, hact]
    push_cast [List.length_append, List.length_cons]
    ring
  by_cases hcas : ({ s.reg with
      words := clear_writes s.reg.words t.writes } : Region).batcher.remaining = 1
  · have h12 : l1 = [] ∧ l2 = [] := by
      have hc2 : s.reg.batcher.remaining = 1 := hcas
      rw [hlen] at hc2
      have hn : l1.length + l2.length + 1 = 1 := by exact_mod_cast hc2
      exact ⟨List.length_eq_zero.mp (by omega), List.length_eq_zero.mp (by omega)⟩
    obtain ⟨hl1, hl2⟩ := h12
    subst hl1
    subst hl2
    obtain ⟨hrem0, hwrit, hzero, hframe⟩ := leave_cas_facts true
      { s.reg with words := clear_writes s.reg.words t.writes } hcas
    refine ⟨?_, ?_, ?_, ?_⟩
    · dsimp only
      rw [hrem0]
      simp
    · intro _
      exact hwrit
    · intro i hi
      exfalso
      dsimp only at hi
      by_cases hiw : i ∈ ({ s.reg with
          words := clear_writes s.reg.words t.writes } : Region).written
      · rw [hzero i hiw] at hi
        exact hi rfl
      · rw [hframe i hiw] at hi
        dsimp only at hi
        rcases clear_writes_frame s.reg.words t.writes i with heq | h0
        · rw [heq] at hi
          rcases hInv.access_owned i hi with ⟨tr, htr, hid, hw⟩ | hw
          · rw [hact] at htr
            have htr2 : tr = t := by simpa using htr
            subst htr2
            have h0 := clear_writes_access_zero s.reg.words tr.writes i (Or.inl hw)
            rw [heq] at h0
            exact hi h0
          · exact hiw hw
        · exact hi h0
    · intro t2 ht2
      exact absurd (by simpa using ht2 : t2 ∈ ([] : List Transaction))
        (List.not_mem_nil t2)
  · obtain ⟨hrem, hwrit, hwords⟩ := leave_noncas_facts true
      { s.reg with words := clear_writes s.reg.words t.writes } hcas
    refine ⟨?_, ?_, ?_, ?_⟩
    · dsimp only
      rw [hrem]
      have hc2 : s.reg.batcher.remaining =
          ((l1.length + l2.length + 1 : Nat) : Int) := hlen
      show ({ s.reg with
        words := clear_writes s.reg.words t.writes } : Region).batcher.remaining - 1 =
        ((l1 ++ l2).length : Int)
      dsimp only
      rw [hc2]
      push_cast [List.length_append]
      ring
    · intro habs
      exfalso
      dsimp only at habs
      obtain ⟨hl1, hl2⟩ := List.append_eq_nil.mp habs
      apply hcas
      show s.reg.batcher.remaining = 1
      rw [hlen, hl1, hl2]
      simp
    · intro i hi
      dsimp only at hi ⊢
      rw [hwords] at hi
      rw [hwords, hwrit]
      dsimp only at hi ⊢
      rcases clear_writes_frame s.reg.words t.writes i with heq | h0
      · rw [heq] at hi ⊢
        rcases hInv.access_owned i hi with ⟨tr, htr, hid, hw⟩ | hw
        · rw [hact] at htr
          rcases List.mem_append.mp htr with h | h
          · exact Or.inl ⟨tr, List.mem_append_left _ h, hid, hw⟩
          · rcases List.mem_cons.mp h with h | h
            · subst h
              have h0 := clear_writes_access_zero s.reg.words tr.writes i (Or.inl hw)
              rw [heq] at h0
              exact absurd h0 hi
            · exact Or.inl ⟨tr, List.mem_append_right _ h, hid, hw⟩
        · exact Or.inr hw
      · exact absurd h0 hi
    · intro t2 ht2 hro
      dsimp only at ht2
      have ht3 : t2 ∈ s.active := by
        rw [hact]
        rcases List.mem_append.mp ht2 with h | h
        · exact List.mem_append_left _ h
        · exact List.mem_append_right _ (List.mem_cons_of_mem _ h)
      exact hInv.ro_no_writes t2 ht3 hro

theorem inv_write_ok (s : Sys) (l1 l2 : List Transaction) (t t2 : Transaction)
    (i v : Nat) (reg2 : Region) (hInv : Inv s) (hact : s.active = l1 ++ t :: l2)
    (hro : t.is_ro = false)
    (hres : tm_write_word s.reg t i v = WriteRes.ok reg2 t2) :
    Inv { reg := reg2, active := l1 ++ t2 :: l2 } := by
  have hmem2 : ∀ tr : Transaction, tr ∈ l1 ∨ tr ∈ l2 → tr ∈ l1 ++ t2 :: l2 := by
    intro tr h
    rcases h with h | h
    · exact List.mem_append_left _ h
    · exact List.mem_append_right _ (List.mem_cons_of_mem _ h)
  have hsplit : ∀ tr : Transaction, tr ∈ s.active → tr ∈ l1 ∨ tr = t ∨ tr ∈ l2 := by
    intro tr h
    rw [hact] at h
    rcases List.mem_append.mp h with h | h
    · exact Or.inl h
    · rcases List.mem_cons.mp h with h | h
      · exact Or.inr (Or.inl h)
      · exact Or.inr (Or.inr h)
  rcases tm_write_word_ok_shape s.reg t i v reg2 t2 hres with
    ⟨h0, hreg, ht2⟩ | ⟨hne, hown, hreg, ht2⟩
  · subst hreg
    subst ht2
    refine ⟨?_, ?_, ?_, ?_⟩
    · dsimp only
      rw [hInv.rem_eq, hact]
      simp [List.length_append]
    · intro habs
      exact absurd habs (by simp)
    · intro j hj
      dsimp only at hj ⊢
      by_cases hji : j = i
      · subst hji
        rcases getD_set_cases s.reg.words j
          (setWriteCopy { s.reg.words.getD j Word.init with access := t.t_id } v)
          with ⟨hgd, _⟩ | ⟨hgd, _⟩
        · rw [hgd] at hj ⊢
          rw [access_setWriteCopy] at hj ⊢
          exact Or.inl ⟨{ t with writes := t.writes ++ [j] }, by simp, rfl, by simp⟩
        · rw [hgd] at hj
          exact absurd h0 hj
      · have hgd := getD_set_ne s.reg.words j i
          (setWriteCopy { s.reg.words.getD i Word.init with access := t.t_id } v)
          Word.init (fun he => hji he.symm)
        rw [hgd] at hj ⊢
        rcases hInv.access_owned j hj with ⟨tr, htr, hid, hw⟩ | hw
        · rcases hsplit tr htr with h | h | h
          · exact Or.inl ⟨tr, hmem2 tr (Or.inl h), hid, hw⟩
          · subst h
            refine Or.inl ⟨{ tr with writes := tr.writes ++ [i] }, by simp, hid, ?_⟩
            exact List.mem_append_left _ hw
          · exact Or.inl ⟨tr, hmem2 tr (Or.inr h), hid, hw⟩
        · exact Or.inr hw
    · intro t3 ht3 hro3
      dsimp only at ht3
      rcases List.mem_append.mp ht3 with h | h
      · exact hInv.ro_no_writes t3 (by rw [hact]; exact List.mem_append_left _ h) hro3
      · rcases List.mem_cons.mp h with h | h
        · subst h
          exact absurd hro3 (by simp [hro])
        · exact hInv.ro_no_writes t3
            (by rw [hact]
                exact List.mem_append_right _ (List.mem_cons_of_mem _ h)) hro3
  · subst hreg
    subst ht2
    refine ⟨?_, ?_, ?_, ?_⟩
    · dsimp only
      rw [hInv.rem_eq, hact]
    · intro habs
      exact absurd habs (by simp)
    · intro j hj
      dsimp only at hj ⊢
      have hacc_eq : (((s.reg.words.set i
          (setWriteCopy (s.reg.words.getD i Word.init) v)).getD j Word.init)).access
          = ((s.reg.words.getD j Word.init)).access := by
        by_cases hji : j = i
        · subst hji
          rcases getD_set_cases s.reg.words j
            (setWriteCopy (s.reg.words.getD j Word.init) v) with ⟨hgd, _⟩ | ⟨hgd, _⟩
          · rw [hgd, access_setWriteCopy]
          · rw [hgd]
        · rw [getD_set_ne s.reg.words j i
            (setWriteCopy (s.reg.words.getD i Word.init) v) Word.init
            (fun he => hji he.symm)]
      rw [hacc_eq] at hj ⊢
      rcases hInv.access_owned j hj with ⟨tr, htr, hid, hw⟩ | hw
      · rcases hsplit tr htr with h | h | h
        · exact Or.inl ⟨tr, hmem2 tr (Or.inl h), hid, hw⟩
        · subst h
          exact Or.inl ⟨tr, by simp, hid, hw⟩
        · exact Or.inl ⟨tr, hmem2 tr (Or.inr h), hid, hw⟩
      · exact Or.inr hw
    · intro t3 ht3 hro3
      dsimp only at ht3
      have ht4 : t3 ∈ s.active := by
        rw [hact]
        exact ht3
      exact hInv.ro_no_writes t3 ht4 hro3

theorem inv_end (s : Sys) (l1 l2 : List Transaction) (t : Transaction)
    (hInv : Inv s) (hact : s.active = l1 ++ t :: l2) :
    Inv { reg := (tm_end s.reg t).2, active := l1 ++ l2 } := by
  have hlen : s.reg.batcher.remaining = ((l1.length + l2.length + 1 : Nat) : Int) := by
    rw [hInv.rem_eq, hact]
    push_cast [List.length_append, List.length_cons]
    ring
  set R1 : Region := if !t.is_ro && !t.writes.isEmpty then
      { s.reg with
        written := t.writes.foldl (fun acc i => i :: acc) s.reg.written }
    else s.reg with hR1def
  have hsnd : (tm_end s.reg t).2 = Batcher.leave false R1 := rfl
  have hWords : R1.words = s.reg.words := by
    rw [hR1def]
    by_cases hc : (!t.is_ro && !t.writes.isEmpty) = true
    · rw [if_pos hc]
    · rw [if_neg hc]
  have hBat : R1.batcher = s.reg.batcher := by
    rw [hR1def]
    by_cases hc : (!t.is_ro && !t.writes.isEmpty) = true
    · rw [if_pos hc]
    · rw [if_neg hc]
  have hMemW : ∀ j, j ∈ s.reg.written → j ∈ R1.written := by
    intro j hj
    rw [hR1def]
    by_cases hc : (!t.is_ro && !t.writes.isEmpty) = true
    · rw [if_pos hc]
      exact (mem_foldl_cons t.writes s.reg.written j).mpr (Or.inr hj)
    · rw [if_neg hc]
      exact hj
  have hPush : t.is_ro = false → ∀ j, j ∈ t.writes → j ∈ R1.written := by
    intro hro j hj
    rw [hR1def]
    have hc : (!t.is_ro && !t.writes.isEmpty) = true := by
      rw [hro]
      simp
      exact List.ne_nil_of_mem hj
    rw [if_pos hc]
    exact (mem_foldl_cons t.writes s.reg.written j).mpr (Or.inl hj)
  rw [hsnd]
  by_cases hcas : R1.batcher.remaining = 1
  · have h12 : l1 = [] ∧ l2 = [] := by
      have hc2 : s.reg.batcher.remaining = 1 := by
        rw [← hBat]
        exact hcas
      rw [hlen] at hc2
      have hn : l1.length + l2.length + 1 = 1 := by exact_mod_cast hc2
      exact ⟨List.length_eq_zero.mp (by omega), List.length_eq_zero.mp (by omega)⟩
    obtain ⟨hl1, hl2⟩ := h12
    subst hl1
    subst hl2
    obtain ⟨hrem0, hwrit, hzero, hframe⟩ := leave_cas_facts false R1 hcas
    refine ⟨?_, ?_, ?_, ?_⟩
    · dsimp only
      rw [hrem0]
      simp
    · intro _
      exact hwrit
    · intro j hj
      exfalso
      dsimp only at hj
      by_cases hjw : j ∈ R1.written
      · rw [hzero j hjw] at hj
        exact hj rfl
      · rw [hframe j hjw, hWords] at hj
        rcases hInv.access_owned j hj with ⟨tr, htr, hid, hw⟩ | hw
        · rw [hact] at htr
          have htr2 : tr = t := by simpa using htr
          subst htr2
          by_cases hro : tr.is_ro = true
          · rw [hInv.ro_no_writes tr (by rw [hact]; simp) hro] at hw
            exact absurd hw (List.not_mem_nil j)
          · exact hjw (hPush (by simpa using hro) j hw)
        · exact hjw (hMemW j hw)
    · intro t2 ht2
      exact absurd (by simpa using ht2 : t2 ∈ ([] : List Transaction))
        (List.not_mem_nil t2)
  · obtain ⟨hrem, hwrit, hwords2⟩ := leave_noncas_facts false R1 hcas
    refine ⟨?_, ?_, ?_, ?_⟩
    · dsimp only
      rw [hrem, hBat, hlen]
      push_cast [List.length_append]
      ring
    · intro habs
      exfalso
      dsimp only at habs
      obtain ⟨hl1, hl2⟩ := List.append_eq_nil.mp habs
      apply hcas
      rw [hBat, hlen, hl1, hl2]
      simp
    · intro j hj
      dsimp only at hj ⊢
      rw [hwords2, hWords] at hj
      rw [hwords2, hWords, hwrit]
      rcases hInv.access_owned j hj with ⟨tr, htr, hid, hw⟩ | hw
      · rw [hact] at htr
        rcases List.mem_append.mp htr with h | h
        · exact Or.inl ⟨tr, List.mem_append_left _ h, hid, hw⟩
        · rcases List.mem_cons.mp h with h | h
          · subst h
            by_cases hro : tr.is_ro = true
            · rw [hInv.ro_no_writes tr (by rw [hact]; simp) hro] at hw
              exact absurd hw (List.not_mem_nil j)
            · exact Or.inr (hPush (by simpa using hro) j hw)
          · exact Or.inl ⟨tr, List.mem_append_right _ h, hid, hw⟩
      · exact Or.inr (hMemW j hw)
    · intro t2 ht2 hro
      dsimp only at ht2
      have ht3 : t2 ∈ s.active := by
        rw [hact]
        rcases List.mem_append.mp ht2 with h | h
        · exact List.mem_append_left _ h
        · exact List.mem_append_right _ (List.mem_cons_of_mem _ h)
      exact hInv.ro_no_writes t2 ht3 hro

theorem Inv_step (s s2 : Sys) (hInv : Inv s) (h : Step s s2) : Inv s2 := by
  cases h with
  | begin_tx is_ro tran reg2 hb => exact inv_begin s is_ro tran reg2 hInv hb
  | write_ok l1 l2 t t2 i v reg2 hact hro hres =>
    exact inv_write_ok s l1 l2 t t2 i v reg2 hInv hact hro hres
  | write_abort l1 l2 t i v reg2 hact hro hres =>
    rw [tm_write_word_abort_shape s.reg t i v reg2 hres]
    exact inv_abort_common s l1 l2 t hInv hact
  | read_abort l1 l2 t i reg2 hact hres =>
    rw [tm_read_word_abort_shape s.reg t i reg2 hres]
    exact inv_abort_common s l1 l2 t hInv hact
  | end_tx l1 l2 t hact => exact inv_end s l1 l2 t hInv hact
  | alloc maxSize sow sz t => exact inv_alloc s maxSize sow sz t hInv

theorem Inv_init (sow size align : Nat) : Inv (Sys.init sow size align) := by
  refine ⟨rfl, fun _ => rfl, fun i hi => ?_, fun t ht _ => absurd ht (List.not_mem_nil t)⟩
  exfalso
  apply hi
  show (((List.replicate (size / align) Word.init).getD i Word.init)).access = 0
  rcases Decidable.em (i < size / align) with hlt | hlt
  · rw [List.getD_eq_getElem?_getD, List.getElem?_replicate]
    simp [hlt, Word.init]
  · rw [List.getD_eq_getElem?_getD,
      List.getElem?_eq_none (by simpa using Nat.le_of_not_lt hlt)]
    rfl

theorem Inv_reach (s0 s : Sys) (h0 : Inv s0) (h : Reach s0 s) : Inv s := by
  induction h with
  | refl => exact h0
  | tail _ hstep ih => exact Inv_step _ _ ih hstep

/-- C8 — access zeroing outside a batch: in every state reachable from a
fresh region by the interleaved atomic operations of the source, if the
batch is empty (`remaining = 0`, i.e. the last leaver has run the epoch
commit and nobody of the next batch has entered), then every word's access
token is the no-owner value 0: the epoch commit released the token of every
committed written word and the abort cleanup released the tokens of every
aborted transaction's owned words. -/
theorem access_zero_outside_batch (sow size align : Nat) (s : Sys)
    (h : Reach (Sys.init sow size align) s)
    (h0 : s.reg.batcher.remaining = 0) (i : Nat) :
    ((s.reg.words.getD i Word.init)).access = 0 := by
  have hInv := Inv_reach _ _ (Inv_init sow size align) h
  have hact : s.active = [] := by
    have hlen := hInv.rem_eq
    rw [h0] at hlen
    have : s.active.length = 0 := by exact_mod_cast hlen.symm
    exact List.length_eq_zero.mp this
  have hwr := hInv.written_nil hact
  by_contra hne
  rcases hInv.access_owned i hne with ⟨t, ht, _, _⟩ | hw
  · rw [hact] at ht
    exact absurd ht (List.not_mem_nil t)
  · rw [hwr] at hw
    exact absurd hw (List.not_mem_nil i)

/-- Witness for C8 at the initial state (reachable by the empty trace,
outside any batch). -/
theorem access_zero_outside_batch_witness :
    (((Sys.init 24 16 8).reg.words.getD 0 Word.init)).access = 0 :=
  access_zero_outside_batch 24 16 8 (Sys.init 24 16 8)
    Relation.ReflTransGen.refl rfl 0

end STM
